import Mathlib

/-!
# Verification of `libadt`'s packed bitwise array (`src/bitwise_array.c`)

Shallow embedding of the C sources:

* a buffer of bytes (`unsigned char`, `libadt_bitwise_array_bit`) is a
  `List Nat`; every byte the code writes is reduced `% 256`, matching the
  truncation on assignment to `unsigned char`;
* `unsigned int` arithmetic on the accumulator in `get` is reduced
  `% 2 ^ 32` (`UINT_MAX + 1` on the targets the code supports);
* `CHAR_BIT` is 8;
* the `for` loops of `libadt_bitwise_array_get` / `libadt_bitwise_array_set`
  become the recursions `get_loop` / `set_loop` on the loop state
  (`location`, `start_from`, `bits_remaining`, accumulator / buffer);
  `start_from` is `lldiv(index * width, 8).rem`, always in `0..7`, carried
  as `Fin 8`;
* `MAX(0, e)` over C `int` on nonnegative inputs coincides with saturating
  `Nat` subtraction, which the embedding uses;
* pointers: the `bits` member of the owning struct is `Option (List Nat)`
  (`none` = `NULL`); `malloc` is an oracle `Int → Option (List Nat)` mapping
  a requested byte count to either a buffer or `NULL`.
-/

/-- One byte of the backing buffer (`libadt_bitwise_array_bit`, an
`unsigned char`).  Bytes written by the code are always `< 256`. -/
abbrev libadt_bitwise_array_bit : Type := Nat

/-- The loop of `libadt_bitwise_array_get` (src/bitwise_array.c lines 75-89).
State: `bits` the byte buffer, `location` the index of the byte the
iteration reads, `start_from` how many bits into that byte the element
continues, `bits_remaining` the bits still to read, `result` the
accumulator.  Per iteration, with `CHAR_BIT = 8`:
`right_bits_ignore = MAX(0, 8 - start_from - bits_remaining)`,
`mask = ((0xff << right_bits_ignore) & 0xff) & (0xff >> start_from)`,
`bits_read = 8 - start_from - right_bits_ignore`,
`value_here = (*location & mask) >> right_bits_ignore`, and the
accumulator update `result = (result << bits_read) + value_here` in
`unsigned int` arithmetic. -/
def get_loop (bits : List Nat) (location : Nat) (start_from : Fin 8)
    (bits_remaining : Nat) (result : Nat) : Nat :=
  if bits_remaining = 0 then result
  else
    let right_bits_ignore : Nat := 8 - start_from.val - bits_remaining
    let mask_right : Nat := 255 >>> start_from.val
    let mask_left : Nat := (255 <<< right_bits_ignore) % 256
    let mask : Nat := mask_left &&& mask_right
    let bits_read : Nat := 8 - start_from.val - right_bits_ignore
    let value_here : Nat := ((bits.getD location 0) &&& mask) >>> right_bits_ignore
    get_loop bits (location + 1) ⟨0, by decide⟩ (bits_remaining - bits_read)
      (((result <<< bits_read) + value_here) % 4294967296)
termination_by bits_remaining
decreasing_by
  have h8 := start_from.isLt
  omega

/-- Embedding of `libadt_bitwise_array_get` (src/bitwise_array.c lines 38-92) acting on
the backing buffer: `byte_index = lldiv(index * width, CHAR_BIT)`, then the
per-byte loop starting at byte `byte_index.quot`, bit `byte_index.rem`,
with `bits_remaining = width` and accumulator `0`. -/
def libadt_bitwise_array_get (width : Nat) (bits : List Nat) (index : Nat) : Nat :=
  get_loop bits ((index * width) / 8) ⟨(index * width) % 8, Nat.mod_lt _ (by decide)⟩
    width 0

/-- The loop of `libadt_bitwise_array_set` (src/bitwise_array.c lines
105-119).  Same walk as `get_loop`; per iteration the byte is replaced by
`(*location & ~(mask_left & mask_right)) + (value >> (bits_remaining - bits_write) << right_bits_ignore)`
truncated to `unsigned char` (`% 256`).  `~` on the 8-bit mask is
`255 ^^^ ·`. -/
def set_loop (bits : List Nat) (location : Nat) (start_from : Fin 8)
    (bits_remaining : Nat) (value : Nat) : List Nat :=
  if bits_remaining = 0 then bits
  else
    let right_bits_ignore : Nat := 8 - start_from.val - bits_remaining
    let mask_right : Nat := 255 >>> start_from.val
    let mask_left : Nat := (255 <<< right_bits_ignore) % 256
    let mask : Nat := 255 ^^^ (mask_left &&& mask_right)
    let bits_write : Nat := 8 - start_from.val - right_bits_ignore
    let written : Nat := (((bits.getD location 0) &&& mask)
      + ((value >>> (bits_remaining - bits_write)) <<< right_bits_ignore)) % 256
    set_loop (bits.set location written) (location + 1) ⟨0, by decide⟩
      (bits_remaining - bits_write) value
termination_by bits_remaining
decreasing_by
  have h8 := start_from.isLt
  omega

/-- Embedding of `libadt_bitwise_array_set` (src/bitwise_array.c lines 94-120) acting on
the backing buffer; returns the updated buffer. -/
def libadt_bitwise_array_set (width : Nat) (bits : List Nat) (index : Nat)
    (value : Nat) : List Nat :=
  set_loop bits ((index * width) / 8) ⟨(index * width) % 8, Nat.mod_lt _ (by decide)⟩
    width value

/-- The iteration count of the `get`/`set` loop: both loops run the same
control (`for (bits_remaining = width; bits_remaining > 0; ...)` with the
same decrement `bits_read` = `bits_write`), mirrored here. -/
def loop_iterations (start_from : Fin 8) (bits_remaining : Nat) : Nat :=
  if bits_remaining = 0 then 0
  else
    let right_bits_ignore : Nat := 8 - start_from.val - bits_remaining
    let bits_read : Nat := 8 - start_from.val - right_bits_ignore
    1 + loop_iterations ⟨0, by decide⟩ (bits_remaining - bits_read)
termination_by bits_remaining
decreasing_by
  have h8 := start_from.isLt
  omega

/-- The owning struct `struct libadt_bitwise_array`: element count
(`ssize_t length`), element bit width (`int width`), and the buffer
pointer (`libadt_bitwise_array_bit *bits`, `none` = `NULL`). -/
structure libadt_bitwise_array where
  length : Int
  width : Int
  bits : Option (List Nat)

/-- Embedding of `libadt_bitwise_array_alloc` (src/bitwise_array.c lines 14-26):
negative `length` or `width` yield the zero struct (`NULL` buffer);
otherwise `bytes = lldiv(length * width, 8).quot + 1` bytes are requested
from `malloc` (the oracle argument) and the struct carries the given
`length` and `width`.  `Int.tdiv` is C's truncated division. -/
def libadt_bitwise_array_alloc (malloc : Int → Option (List Nat))
    (length : Int) (width : Int) : libadt_bitwise_array :=
  if length < 0 ∨ width < 0 then ⟨0, 0, none⟩
  else
    let bytes : Int := (length * width).tdiv 8 + 1
    ⟨length, width, malloc bytes⟩

/-- Embedding of `libadt_bitwise_array_valid` (src/bitwise_array.c lines 28-31):
`array.bits != NULL`. -/
def libadt_bitwise_array_valid (array : libadt_bitwise_array) : Bool :=
  array.bits.isSome

/-- Embedding of `libadt_bitwise_array_free` (src/bitwise_array.c lines 33-36):
`free(array.bits)` and return `void`.  The struct is received by value, so
the array value the caller holds after the call is the unchanged struct;
the function models that caller-visible value (the heap release itself has
no effect on any struct member). -/
def libadt_bitwise_array_free (array : libadt_bitwise_array) :
    libadt_bitwise_array :=
  array

/-! ## The binary-layout specification

Spec section 6: elements are stored most-significant-bit-first, packed
with no padding, element `i` occupying absolute bit positions
`[i*width, (i+1)*width)`, where absolute bit `n` is bit `7 - n % 8`
(counting from the least significant bit) of byte `n / 8`.  These
definitions follow the spec's words, for comparison with the code. -/

/-- Absolute bit `n` of the buffer under the spec's layout: bit
`7 - n % 8` of byte `n / 8` (bit 0 of the buffer is the most significant
bit of byte 0). -/
def layout_bit (bits : List Nat) (n : Nat) : Nat :=
  ((bits.getD (n / 8) 0) >>> (7 - n % 8)) &&& 1

/-- The value of `count` consecutive absolute bits starting at position
`p`, most significant first, under the spec's layout. -/
def layout_value (bits : List Nat) (p : Nat) : (count : Nat) → Nat
  | 0 => 0
  | n + 1 => 2 * layout_value bits p n + layout_bit bits (p + n)

/-! ## Arithmetic helpers -/

theorem getD_set (l : List Nat) (i j a : Nat) :
    (l.set i a).getD j 0 = if i = j ∧ i < l.length then a else l.getD j 0 := by
  simp only [List.getD_eq_getElem?_getD, List.getElem?_set]
  by_cases hij : i = j
  · subst hij
    by_cases hl : i < l.length
    · simp [hl]
    · simp only [hl, if_false, if_true, and_true, if_pos rfl]
      rw [List.getElem?_eq_none (by omega)]
      simp [hl]
  · simp [hij]

theorem mod_two_pow_succ (x m : Nat) : x % 2^(m+1) = 2 * (x / 2 % 2^m) + x % 2 := by
  have h1 := Nat.div_add_mod x 2
  have h2 := Nat.div_add_mod (x / 2) (2^m)
  have h3 := Nat.div_add_mod x (2^(m+1))
  have hd : x / 2 / 2^m = x / 2^(m+1) := by
    rw [Nat.div_div_eq_div_mul]
    congr 1
    ring
  rw [hd] at h2
  have h4 : 2^(m+1) * (x / 2^(m+1)) = 2 * (2^m * (x / 2^(m+1))) := by
    rw [show (2:Nat)^(m+1) = 2 * 2^m from by ring, Nat.mul_assoc]
  have h5 : (0:Nat) < 2^m := Nat.two_pow_pos m
  have hb1 : x % 2 < 2 := Nat.mod_lt _ (by norm_num)
  have hb2 : x / 2 % 2^m < 2^m := Nat.mod_lt _ h5
  have hb3 : x % 2^(m+1) < 2^(m+1) := Nat.mod_lt _ (Nat.two_pow_pos _)
  have h6 : (2:Nat)^(m+1) = 2 * 2^m := by ring
  omega

theorem bit_split_low (c y r j : Nat) (hj : j < r) :
    (c + y * 2^r) / 2^j % 2 = c / 2^j % 2 := by
  have hy : y * 2^r = (y * 2^(r-j)) * 2^j := by
    rw [Nat.mul_assoc, ← pow_add]
    congr 2
    omega
  rw [hy, Nat.add_mul_div_right _ _ (Nat.two_pow_pos j)]
  have hz : y * 2^(r-j) = (y * 2^(r-j-1)) * 2 := by
    rw [Nat.mul_assoc, show (2:Nat)^(r-j) = 2^(r-j-1) * 2 from by
      rw [← pow_succ]
      congr 1
      omega]
  rw [hz, Nat.add_mul_mod_self_right]

theorem bit_split_high (c y r j : Nat) (hc : c < 2^r) (hj : r ≤ j) :
    (c + y * 2^r) / 2^j % 2 = y / 2^(j-r) % 2 := by
  have h1 : (c + y * 2^r) / 2^j = ((c + y * 2^r) / 2^r) / 2^(j-r) := by
    rw [Nat.div_div_eq_div_mul, ← pow_add]
    congr 2
    omega
  rw [h1, Nat.add_mul_div_right _ _ (Nat.two_pow_pos r), Nat.div_eq_of_lt hc, Nat.zero_add]

theorem and_mod_256 (B m : Nat) (hm : m < 256) : B &&& m = (B % 256) &&& m := by
  apply Nat.eq_of_testBit_eq
  intro i
  rw [Nat.testBit_and, Nat.testBit_and, show (256:Nat) = 2^8 from rfl,
    Nat.testBit_mod_two_pow]
  by_cases h : i < 8
  · simp [h]
  · have h8i : (2:Nat)^8 ≤ 2^i := Nat.pow_le_pow_right (by norm_num) (by omega)
    have : m.testBit i = false := Nat.testBit_lt_two_pow (lt_of_lt_of_le hm h8i)
    simp [h, this]

theorem div_mod_two_pow_lift (B r k : Nat) :
    B / 2^r % 2^k = (B % 2^(r+k)) / 2^r := by
  rw [← Nat.mod_mul_right_div_self, ← pow_add]

set_option maxRecDepth 4000 in
theorem mask_val : ∀ s < 8, ∀ r < 9,
    (((255 <<< r) % 256) &&& (255 >>> s) : Nat) = 2^(8-s) - 2^r := by decide

set_option maxRecDepth 100000 in
theorem value_here_256 : ∀ b < 256, ∀ s < 8, ∀ r < 9, r ≤ 8 - s →
    ((b &&& (2^(8-s) - 2^r)) >>> r : Nat) = b / 2^r % 2^(8-s-r) := by decide

set_option maxRecDepth 100000 in
theorem clear_mask_256 : ∀ b < 256, ∀ s < 8, ∀ r < 9, r ≤ 8 - s →
    (b &&& (255 ^^^ (2^(8-s) - 2^r)) : Nat)
      = b % 2^r + 2^(8-s) * ((b >>> (8-s)) % 2^s) := by decide

theorem pow_sub_mask_lt (s r : Nat) : (2:Nat)^(8-s) - 2^r < 256 := by
  have h1 : (2:Nat)^(8-s) ≤ 2^8 := Nat.pow_le_pow_right (by norm_num) (by omega)
  have h2 := Nat.two_pow_pos r
  norm_num at h1
  omega

theorem value_here_eq (B s r : Nat) (hs : s < 8) (hr : r ≤ 8 - s) :
    (B &&& (((255 <<< r) % 256) &&& (255 >>> s))) >>> r = B / 2^r % 2^(8-s-r) := by
  rw [mask_val s hs r (by omega), and_mod_256 _ _ (pow_sub_mask_lt s r),
    value_here_256 (B % 256) (Nat.mod_lt _ (by norm_num)) s hs r (by omega) hr,
    div_mod_two_pow_lift, div_mod_two_pow_lift]
  congr 1
  rw [show (256:Nat) = 2^8 from rfl, Nat.mod_mod_of_dvd B (pow_dvd_pow 2 (by omega))]

theorem clear_mask_eq (B s r : Nat) (hs : s < 8) (hr : r ≤ 8 - s) :
    B &&& (255 ^^^ (((255 <<< r) % 256) &&& (255 >>> s)))
      = B % 2^r + 2^(8-s) * (B / 2^(8-s) % 2^s) := by
  have hmask : (255 ^^^ ((2:Nat)^(8-s) - 2^r)) < 256 := by
    have h1 := pow_sub_mask_lt s r
    have h2 : ((2:Nat)^(8-s) - 2^r) < 2^8 := by norm_num; omega
    exact Nat.xor_lt_two_pow (by norm_num) h2
  rw [mask_val s hs r (by omega), and_mod_256 _ _ hmask,
    clear_mask_256 (B % 256) (Nat.mod_lt _ (by norm_num)) s hs r (by omega) hr,
    Nat.shiftRight_eq_div_pow]
  congr 1
  · rw [show (256:Nat) = 2^8 from rfl, Nat.mod_mod_of_dvd B (pow_dvd_pow 2 (by omega))]
  · congr 1
    rw [div_mod_two_pow_lift, div_mod_two_pow_lift]
    congr 1
    rw [show (256:Nat) = 2^8 from rfl, Nat.mod_mod_of_dvd B (pow_dvd_pow 2 (by omega))]

theorem layout_bit_eq_div (bits : List Nat) (n : Nat) :
    layout_bit bits n = (bits.getD (n/8) 0) / 2^(7 - n % 8) % 2 := by
  rw [layout_bit, Nat.shiftRight_eq_div_pow, Nat.and_one_is_mod]

theorem layout_bit_lt (bits : List Nat) (n : Nat) : layout_bit bits n < 2 := by
  rw [layout_bit_eq_div]
  exact Nat.mod_lt _ (by norm_num)

theorem layout_value_lt (bits : List Nat) (p n : Nat) : layout_value bits p n < 2^n := by
  induction n with
  | zero => simp [layout_value]
  | succ n ih =>
    have hb := layout_bit_lt bits (p + n)
    have h2 : (2:Nat)^(n+1) = 2 * 2^n := by ring
    simp only [layout_value]
    omega

theorem layout_value_split (bits : List Nat) (p a c : Nat) :
    layout_value bits p (a + c) = layout_value bits p a * 2^c + layout_value bits (p + a) c := by
  induction c with
  | zero => simp [layout_value]
  | succ c ih =>
    have h1 : a + (c + 1) = (a + c) + 1 := by omega
    rw [h1]
    simp only [layout_value]
    rw [ih]
    have h2 : p + (a + c) = p + a + c := by omega
    rw [h2]
    ring

theorem layout_value_byte (bits : List Nat) (loc s n : Nat) (h : s + n ≤ 8) :
    layout_value bits (8 * loc + s) n = (bits.getD loc 0) / 2^(8 - s - n) % 2^n := by
  induction n with
  | zero => simp [layout_value, Nat.mod_one]
  | succ n ih =>
    simp only [layout_value]
    rw [ih (by omega), layout_bit_eq_div]
    have hdiv : (8 * loc + s + n) / 8 = loc := by omega
    have hmod : (8 * loc + s + n) % 8 = s + n := by omega
    rw [hdiv, hmod]
    have h7 : 7 - (s + n) = 8 - s - (n + 1) := by omega
    rw [h7]
    have h8 : 8 - s - n = (8 - s - (n+1)) + 1 := by omega
    rw [h8]
    have hx : bits.getD loc 0 / 2^((8 - s - (n+1)) + 1) = bits.getD loc 0 / 2^(8 - s - (n+1)) / 2 := by
      rw [Nat.div_div_eq_div_mul, pow_succ]
    rw [hx, mod_two_pow_succ]

/-! ## `get` against the layout specification -/

theorem get_loop_step (bits : List Nat) (loc : Nat) (s : Fin 8) (b res : Nat)
    (hb : b ≠ 0) :
    get_loop bits loc s b res
      = get_loop bits (loc + 1) ⟨0, by decide⟩
          (b - (8 - s.val - (8 - s.val - b)))
          ((res <<< (8 - s.val - (8 - s.val - b))
            + ((bits.getD loc 0 &&& (((255 <<< (8 - s.val - b)) % 256) &&& (255 >>> s.val)))
               >>> (8 - s.val - b))) % 4294967296) := by
  rw [get_loop, if_neg hb]

theorem get_loop_spec (bits : List Nat) (b : Nat) :
    ∀ loc res : Nat, ∀ s : Fin 8, res < 4294967296 →
      get_loop bits loc s b res
        = (res * 2^b + layout_value bits (8 * loc + s.val) b) % 4294967296 := by
  induction b using Nat.strong_induction_on with
  | _ b ih =>
    intro loc res s hres
    have ha : s.val < 8 := s.isLt
    rcases Nat.eq_zero_or_pos b with hb | hb
    · subst hb
      rw [get_loop]
      simp [layout_value, Nat.mod_eq_of_lt hres]
    · rw [get_loop_step bits loc s b res (by omega)]
      rw [value_here_eq (bits.getD loc 0) s.val (8 - s.val - b) ha (by omega)]
      have hbr1 : 1 ≤ 8 - s.val - (8 - s.val - b) := by omega
      have hlt : b - (8 - s.val - (8 - s.val - b)) < b := by omega
      rw [ih _ hlt (loc + 1) _ ⟨0, by decide⟩ (Nat.mod_lt _ (by norm_num))]
      rcases le_or_lt b (8 - s.val) with hcase | hcase
      · -- the element ends inside the current byte: a single iteration remains
        have hr : 8 - s.val - b ≤ 8 - s.val := by omega
        have hbr : 8 - s.val - (8 - s.val - b) = b := by omega
        rw [hbr]
        have hb0 : b - b = 0 := by omega
        rw [hb0]
        simp only [layout_value, pow_zero, Nat.mul_one, Nat.add_zero]
        rw [Nat.mod_mod_of_dvd _ dvd_rfl]
        rw [layout_value_byte bits loc s.val b (by omega)]
        rw [Nat.shiftLeft_eq]
      · -- the element continues into later bytes
        have hr0 : 8 - s.val - b = 0 := by omega
        rw [hr0]
        have hbr : 8 - s.val - 0 = 8 - s.val := by omega
        rw [hbr]
        have hsplit := layout_value_split bits (8 * loc + s.val) (8 - s.val) (b - (8 - s.val))
        have hb' : (8 - s.val) + (b - (8 - s.val)) = b := by omega
        rw [hb'] at hsplit
        rw [hsplit]
        rw [layout_value_byte bits loc s.val (8 - s.val) (by omega)]
        have hpos : 8 * loc + s.val + (8 - s.val) = 8 * (loc + 1) + (⟨0, by decide⟩ : Fin 8).val := by
          simp
          omega
        rw [hpos]
        have e0 : 8 - s.val - (8 - s.val) = 0 := by omega
        rw [e0, pow_zero, Nat.div_one]
        rw [Nat.shiftLeft_eq]
        rw [Nat.add_mod, Nat.mod_mul_mod, ← Nat.add_mod]
        congr 1
        have hadd : (8 - s.val) + (b - (8 - s.val)) = b := by omega
        have hexp : 2^(8 - s.val) * 2^(b - (8 - s.val)) = 2^b := by
          rw [← pow_add, hadd]
        rw [Nat.add_mul, Nat.mul_assoc, hexp]
        ring

theorem libadt_bitwise_array_get_spec (width : Nat) (bits : List Nat) (index : Nat) :
    libadt_bitwise_array_get width bits index
      = layout_value bits (index * width) width % 4294967296 := by
  rw [libadt_bitwise_array_get, get_loop_spec bits width _ 0 _ (by norm_num)]
  have hv : ((⟨(index * width) % 8, Nat.mod_lt _ (by decide)⟩ : Fin 8)).val
      = (index * width) % 8 := rfl
  rw [hv]
  have hp : 8 * ((index * width) / 8) + (index * width) % 8 = index * width := by omega
  rw [hp]
  simp

theorem get_eq_layout (width : Nat) (bits : List Nat) (index : Nat) (hw : width ≤ 32) :
    libadt_bitwise_array_get width bits index = layout_value bits (index * width) width := by
  rw [libadt_bitwise_array_get_spec]
  apply Nat.mod_eq_of_lt
  have h1 := layout_value_lt bits (index * width) width
  have h2 : (2:Nat)^width ≤ 2^32 := Nat.pow_le_pow_right (by norm_num) hw
  have h3 : (2:Nat)^32 = 4294967296 := by norm_num
  omega

/-! ## `set` against the layout specification -/

theorem fin_val_mk (m : Nat) (h : m < 8) : ((⟨m, h⟩ : Fin 8)).val = m := rfl

theorem set_loop_step (bits : List Nat) (loc : Nat) (s : Fin 8) (b v : Nat)
    (hb : b ≠ 0) :
    set_loop bits loc s b v
      = set_loop
          (bits.set loc
            ((((bits.getD loc 0) &&& (255 ^^^ (((255 <<< (8 - s.val - b)) % 256) &&& (255 >>> s.val))))
              + ((v >>> (b - (8 - s.val - (8 - s.val - b)))) <<< (8 - s.val - b))) % 256))
          (loc + 1) ⟨0, by decide⟩ (b - (8 - s.val - (8 - s.val - b))) v := by
  rw [set_loop, if_neg hb]

theorem set_loop_length (b : Nat) :
    ∀ (bits : List Nat) (loc v : Nat) (s : Fin 8),
      (set_loop bits loc s b v).length = bits.length := by
  induction b using Nat.strong_induction_on with
  | _ b ih =>
    intro bits loc v s
    rcases Nat.eq_zero_or_pos b with hb | hb
    · subst hb
      rw [set_loop]
      simp
    · have ha := s.isLt
      rw [set_loop_step _ _ _ _ _ (by omega)]
      rw [ih _ (by omega)]
      exact List.length_set _ _ _

theorem set_loop_frame (b : Nat) :
    ∀ (bits : List Nat) (loc v k : Nat) (s : Fin 8),
      (k < loc ∨ 8 * loc + s.val + b ≤ 8 * k) →
      (set_loop bits loc s b v).getD k 0 = bits.getD k 0 := by
  induction b using Nat.strong_induction_on with
  | _ b ih =>
    intro bits loc v k s hk
    rcases Nat.eq_zero_or_pos b with hb | hb
    · subst hb
      rw [set_loop]
      simp
    · have ha := s.isLt
      rw [set_loop_step _ _ _ _ _ (by omega)]
      rw [ih _ (by omega)]
      · rw [getD_set]
        rw [if_neg (by omega)]
      · rw [fin_val_mk]
        omega

theorem mod_256_decomp (c y r : Nat) (hc : c < 2^r) (hr : r ≤ 8) :
    (c + y * 2^r) % 256 = c + (y % 2^(8-r)) * 2^r := by
  have h1 : (2:Nat)^(8-r) * 2^r = 256 := by
    rw [← pow_add, show 8 - r + r = 8 from by omega]
    norm_num
  have h2 : c + y * 2^r
      = (c + (y % 2^(8-r)) * 2^r) + (y / 2^(8-r)) * 256 := by
    conv_lhs => rw [show y = 2^(8-r) * (y / 2^(8-r)) + y % 2^(8-r) from (Nat.div_add_mod _ _).symm]
    rw [← h1]
    ring
  rw [h2, Nat.add_mul_mod_self_right]
  apply Nat.mod_eq_of_lt
  have h3 : y % 2^(8-r) < 2^(8-r) := Nat.mod_lt _ (Nat.two_pow_pos _)
  have h4 : (y % 2^(8-r)) * 2^r + 2^r ≤ 256 := by
    have h5 : (y % 2^(8-r) + 1) * 2^r ≤ 2^(8-r) * 2^r := Nat.mul_le_mul_right _ (by omega)
    rw [h1] at h5
    rw [Nat.add_mul, Nat.one_mul] at h5
    exact h5
  omega

theorem bit_mod_pow_eq (x k j : Nat) (hj : j < k) :
    (x % 2^k) / 2^j % 2 = x / 2^j % 2 := by
  have hp : (2:Nat)^k = 2^(k-j) * 2^j := by
    rw [← pow_add, show k - j + j = k from by omega]
  have hsplit : x / 2^j = (x % 2^k) / 2^j + (x / 2^k) * 2^(k-j) := by
    conv_lhs => rw [show x = x % 2^k + 2^k * (x / 2^k) from (Nat.mod_add_div x (2^k)).symm]
    have h3 : 2^k * (x / 2^k) = ((x / 2^k) * 2^(k-j)) * 2^j := by
      rw [hp]
      ring
    rw [h3, Nat.add_mul_div_right _ _ (Nat.two_pow_pos j)]
  rw [hsplit]
  have h2 : (x / 2^k) * 2^(k-j) = ((x / 2^k) * 2^(k-j-1)) * 2 := by
    rw [Nat.mul_assoc, show (2:Nat)^(k-j) = 2^(k-j-1) * 2 from by
      rw [← pow_succ, show k-j-1+1 = k-j from by omega]]
  rw [h2, Nat.add_mul_mod_self_right]

theorem set_loop_aligned_bit (b : Nat) :
    ∀ (bits : List Nat) (loc v n : Nat), 8 * loc + b ≤ 8 * bits.length →
      layout_bit (set_loop bits loc ⟨0, by decide⟩ b v) n
        = if 8 * loc ≤ n ∧ n < 8 * loc + b then v / 2^(b - 1 - (n - 8 * loc)) % 2
          else layout_bit bits n := by
  induction b using Nat.strong_induction_on with
  | _ b ih =>
    intro bits loc v n hlen
    rcases Nat.eq_zero_or_pos b with hb | hb
    · subst hb
      rw [set_loop, if_pos rfl, if_neg (by omega)]
    · rw [set_loop_step _ _ _ _ _ (by omega)]
      simp only [fin_val_mk, Nat.sub_zero]
      rw [clear_mask_eq _ 0 (8 - b) (by norm_num) (by omega)]
      simp only [Nat.sub_zero, Nat.pow_zero, Nat.mod_one, Nat.mul_zero, Nat.add_zero]
      rw [Nat.shiftLeft_eq, Nat.shiftRight_eq_div_pow]
      rw [mod_256_decomp _ _ _ (Nat.mod_lt _ (Nat.two_pow_pos _)) (by omega)]
      rw [ih (b - (8 - (8 - b))) (by omega) _ (loc + 1) v n
        (by rw [List.length_set]; omega)]
      by_cases hn1 : 8 * (loc + 1) ≤ n ∧ n < 8 * (loc + 1) + (b - (8 - (8 - b)))
      · rw [if_pos hn1, if_pos (by omega)]
        rw [show b - (8 - (8 - b)) - 1 - (n - 8 * (loc + 1)) = b - 1 - (n - 8 * loc)
          from by omega]
      · rw [if_neg hn1]
        by_cases hn2 : n / 8 = loc
        · have hloc : loc < bits.length := by omega
          have hbit : layout_bit ((bits.set loc
              (bits.getD loc 0 % 2 ^ (8 - b)
                + v / 2 ^ (b - (8 - (8 - b))) % 2 ^ (8 - (8 - b)) * 2 ^ (8 - b)))) n
              = (bits.getD loc 0 % 2 ^ (8 - b)
                + v / 2 ^ (b - (8 - (8 - b))) % 2 ^ (8 - (8 - b)) * 2 ^ (8 - b))
                  / 2^(7 - n % 8) % 2 := by
            rw [layout_bit_eq_div, hn2, getD_set, if_pos ⟨rfl, hloc⟩]
          rw [hbit]
          have hn8 : n % 8 = n - 8 * loc := by omega
          by_cases hreg : 8 * loc ≤ n ∧ n < 8 * loc + b
          · rw [if_pos hreg]
            have hjr : 8 - b ≤ 7 - n % 8 := by omega
            rw [bit_split_high _ _ _ _ (Nat.mod_lt _ (Nat.two_pow_pos _)) hjr]
            rw [bit_mod_pow_eq _ _ _ (by omega)]
            rw [Nat.div_div_eq_div_mul, ← pow_add]
            rw [show b - (8 - (8 - b)) + (7 - n % 8 - (8 - b)) = b - 1 - (n - 8 * loc)
              from by omega]
          · rw [if_neg hreg]
            have hjr : 7 - n % 8 < 8 - b := by omega
            rw [bit_split_low _ _ _ _ hjr]
            rw [bit_mod_pow_eq _ _ _ hjr]
            rw [layout_bit_eq_div, hn2]
        · rw [layout_bit_eq_div, getD_set, if_neg (by omega), if_neg (by omega),
            layout_bit_eq_div]

theorem set_bit_clean (width : Nat) (bits : List Nat) (index v n : Nat)
    (hv : v < 2^width) (hlen : index * width + width ≤ 8 * bits.length) :
    layout_bit (libadt_bitwise_array_set width bits index v) n
      = if index * width ≤ n ∧ n < index * width + width
        then v / 2^(width - 1 - (n - index * width)) % 2
        else layout_bit bits n := by
  rcases Nat.eq_zero_or_pos width with hw | hw
  · subst hw
    rw [libadt_bitwise_array_set, set_loop, if_pos rfl, if_neg (by omega)]
  · rw [libadt_bitwise_array_set]
    rw [set_loop_step _ _ _ _ _ (by omega)]
    simp only [fin_val_mk]
    rw [clear_mask_eq _ ((index * width) % 8) (8 - (index * width) % 8 - width)
      (by omega) (by omega)]
    rw [Nat.shiftLeft_eq, Nat.shiftRight_eq_div_pow]
    -- abbreviations (in comments): p = index*width, s = p % 8, loc = p / 8,
    -- r = 8 - s - width, bw = 8 - s - r, B = bits.getD loc 0,
    -- y = v / 2^(width - bw), z = B / 2^(8-s) % 2^s
    have hbwv : v / 2^(width - (8 - (index * width) % 8 - (8 - (index * width) % 8 - width)))
        < 2^(8 - (index * width) % 8 - (8 - (index * width) % 8 - width)) := by
      apply Nat.div_lt_of_lt_mul
      rw [← pow_add]
      exact lt_of_lt_of_le hv (Nat.pow_le_pow_right (by norm_num) (by omega))
    have hregroup :
        bits.getD (index * width / 8) 0 % 2 ^ (8 - (index * width) % 8 - width)
          + 2 ^ (8 - (index * width) % 8)
            * (bits.getD (index * width / 8) 0 / 2 ^ (8 - (index * width) % 8)
                % 2 ^ ((index * width) % 8))
          + v / 2 ^ (width - (8 - (index * width) % 8 - (8 - (index * width) % 8 - width)))
            * 2 ^ (8 - (index * width) % 8 - width)
        = bits.getD (index * width / 8) 0 % 2 ^ (8 - (index * width) % 8 - width)
          + (v / 2 ^ (width - (8 - (index * width) % 8 - (8 - (index * width) % 8 - width)))
              + (bits.getD (index * width / 8) 0 / 2 ^ (8 - (index * width) % 8)
                  % 2 ^ ((index * width) % 8))
                * 2 ^ (8 - (index * width) % 8 - (8 - (index * width) % 8 - width)))
            * 2 ^ (8 - (index * width) % 8 - width) := by
      rw [show (2:Nat) ^ (8 - (index * width) % 8)
          = 2 ^ (8 - (index * width) % 8 - (8 - (index * width) % 8 - width))
            * 2 ^ (8 - (index * width) % 8 - width) from by
        rw [← pow_add]
        congr 1
        omega]
      ring
    rw [hregroup]
    have hc0 : bits.getD (index * width / 8) 0 % 2 ^ (8 - (index * width) % 8 - width)
        < 2 ^ (8 - (index * width) % 8 - width) := Nat.mod_lt _ (Nat.two_pow_pos _)
    have hz : bits.getD (index * width / 8) 0 / 2 ^ (8 - (index * width) % 8)
        % 2 ^ ((index * width) % 8) < 2 ^ ((index * width) % 8) :=
      Nat.mod_lt _ (Nat.two_pow_pos _)
    have hsum_lt :
        bits.getD (index * width / 8) 0 % 2 ^ (8 - (index * width) % 8 - width)
          + (v / 2 ^ (width - (8 - (index * width) % 8 - (8 - (index * width) % 8 - width)))
              + (bits.getD (index * width / 8) 0 / 2 ^ (8 - (index * width) % 8)
                  % 2 ^ ((index * width) % 8))
                * 2 ^ (8 - (index * width) % 8 - (8 - (index * width) % 8 - width)))
            * 2 ^ (8 - (index * width) % 8 - width) < 256 := by
      have hz2 : (bits.getD (index * width / 8) 0 / 2 ^ (8 - (index * width) % 8)
              % 2 ^ ((index * width) % 8))
            * 2 ^ (8 - (index * width) % 8 - (8 - (index * width) % 8 - width))
            + 2 ^ (8 - (index * width) % 8 - (8 - (index * width) % 8 - width))
          ≤ 2 ^ ((index * width) % 8)
            * 2 ^ (8 - (index * width) % 8 - (8 - (index * width) % 8 - width)) := by
        have h := Nat.mul_le_mul_right
          (2 ^ (8 - (index * width) % 8 - (8 - (index * width) % 8 - width)))
          (show bits.getD (index * width / 8) 0 / 2 ^ (8 - (index * width) % 8)
              % 2 ^ ((index * width) % 8) + 1 ≤ 2 ^ ((index * width) % 8) from by omega)
        rw [Nat.add_mul, Nat.one_mul] at h
        exact h
      have hy2 :
          (v / 2 ^ (width - (8 - (index * width) % 8 - (8 - (index * width) % 8 - width)))
              + (bits.getD (index * width / 8) 0 / 2 ^ (8 - (index * width) % 8)
                  % 2 ^ ((index * width) % 8))
                * 2 ^ (8 - (index * width) % 8 - (8 - (index * width) % 8 - width)))
              * 2 ^ (8 - (index * width) % 8 - width)
            + 2 ^ (8 - (index * width) % 8 - width)
          ≤ ((2 ^ ((index * width) % 8)
              * 2 ^ (8 - (index * width) % 8 - (8 - (index * width) % 8 - width)))
              * 2 ^ (8 - (index * width) % 8 - width)) := by
        have h := Nat.mul_le_mul_right (2 ^ (8 - (index * width) % 8 - width))
          (show v / 2 ^ (width - (8 - (index * width) % 8 - (8 - (index * width) % 8 - width)))
              + (bits.getD (index * width / 8) 0 / 2 ^ (8 - (index * width) % 8)
                  % 2 ^ ((index * width) % 8))
                * 2 ^ (8 - (index * width) % 8 - (8 - (index * width) % 8 - width)) + 1
            ≤ 2 ^ ((index * width) % 8)
              * 2 ^ (8 - (index * width) % 8 - (8 - (index * width) % 8 - width)) from by omega)
        rw [Nat.add_mul, Nat.one_mul] at h
        exact h
      have h256 : (2 ^ ((index * width) % 8)
            * 2 ^ (8 - (index * width) % 8 - (8 - (index * width) % 8 - width)))
            * 2 ^ (8 - (index * width) % 8 - width) = 256 := by
        rw [← pow_add, ← pow_add, show (index * width) % 8
            + (8 - (index * width) % 8 - (8 - (index * width) % 8 - width))
            + (8 - (index * width) % 8 - width) = 8 from by omega]
        norm_num
      omega
    rw [Nat.mod_eq_of_lt hsum_lt]
    rw [set_loop_aligned_bit (width - (8 - (index * width) % 8 - (8 - (index * width) % 8 - width)))
      _ (index * width / 8 + 1) v n (by rw [List.length_set]; omega)]
    by_cases hn1 : 8 * (index * width / 8 + 1) ≤ n
        ∧ n < 8 * (index * width / 8 + 1)
          + (width - (8 - (index * width) % 8 - (8 - (index * width) % 8 - width)))
    · rw [if_pos hn1, if_pos (by omega)]
      rw [show width - (8 - (index * width) % 8 - (8 - (index * width) % 8 - width)) - 1
          - (n - 8 * (index * width / 8 + 1)) = width - 1 - (n - index * width) from by omega]
    · rw [if_neg hn1]
      by_cases hn2 : n / 8 = index * width / 8
      · rw [layout_bit_eq_div, hn2, getD_set, if_pos ⟨rfl, by omega⟩]
        by_cases hreg : index * width ≤ n ∧ n < index * width + width
        · rw [if_pos hreg]
          have hjr : 8 - (index * width) % 8 - width ≤ 7 - n % 8 := by omega
          rw [bit_split_high _ _ _ _ (Nat.mod_lt _ (Nat.two_pow_pos _)) hjr]
          rw [bit_split_low _ _ _ _ (by omega)]
          rw [Nat.div_div_eq_div_mul, ← pow_add]
          rw [show width - (8 - (index * width) % 8 - (8 - (index * width) % 8 - width))
              + (7 - n % 8 - (8 - (index * width) % 8 - width))
              = width - 1 - (n - index * width) from by omega]
        · rw [if_neg hreg]
          rcases lt_or_ge (7 - n % 8) (8 - (index * width) % 8 - width) with hj | hj
          · rw [bit_split_low _ _ _ _ hj, bit_mod_pow_eq _ _ _ hj, layout_bit_eq_div, hn2]
          · rw [bit_split_high _ _ _ _ (Nat.mod_lt _ (Nat.two_pow_pos _)) hj]
            rw [bit_split_high _ _ _ _ hbwv (by omega)]
            rw [bit_mod_pow_eq _ _ _ (by omega)]
            rw [Nat.div_div_eq_div_mul, ← pow_add]
            rw [show 8 - (index * width) % 8
                + (7 - n % 8 - (8 - (index * width) % 8 - width)
                  - (8 - (index * width) % 8 - (8 - (index * width) % 8 - width)))
                = 7 - n % 8 from by omega]
            rw [layout_bit_eq_div, hn2]
      · rw [layout_bit_eq_div, getD_set, if_neg (by omega), if_neg (by omega),
          layout_bit_eq_div]

theorem layout_value_of_bits (bits2 : List Nat) (p b v : Nat)
    (h : ∀ k, k < b → layout_bit bits2 (p + k) = v / 2^(b - 1 - k) % 2) :
    layout_value bits2 p b = v % 2^b := by
  have main : ∀ m, m ≤ b → layout_value bits2 p m = v / 2^(b - m) % 2^m := by
    intro m
    induction m with
    | zero => intro _; simp [layout_value, Nat.mod_one]
    | succ m ih =>
      intro hm
      simp only [layout_value]
      rw [ih (by omega), h m (by omega)]
      rw [show b - m = (b - (m+1)) + 1 from by omega]
      rw [show v / 2^((b - (m+1)) + 1) = v / 2^(b - (m+1)) / 2 from by
        rw [Nat.div_div_eq_div_mul, pow_succ]]
      rw [show b - 1 - m = b - (m+1) from by omega]
      rw [mod_two_pow_succ]
  have hb := main b (le_refl b)
  rw [hb, Nat.sub_self, pow_zero, Nat.div_one]

theorem layout_bit_congr (bits1 bits2 : List Nat) (n : Nat)
    (h : bits1.getD (n / 8) 0 = bits2.getD (n / 8) 0) :
    layout_bit bits1 n = layout_bit bits2 n := by
  rw [layout_bit, layout_bit, h]

theorem layout_value_congr (bits1 bits2 : List Nat) (p b : Nat)
    (h : ∀ k, k < b → layout_bit bits1 (p + k) = layout_bit bits2 (p + k)) :
    layout_value bits1 p b = layout_value bits2 p b := by
  induction b with
  | zero => simp [layout_value]
  | succ b ih =>
    simp only [layout_value]
    rw [ih (fun k hk => h k (by omega)), h b (by omega)]

theorem set_loop_zero (bits : List Nat) (loc : Nat) (s : Fin 8) (v : Nat) :
    set_loop bits loc s 0 v = bits := by
  rw [set_loop]
  norm_num

theorem set_loop_aligned_trunc (b : Nat) :
    ∀ (bits : List Nat) (loc v : Nat),
      set_loop bits loc ⟨0, by decide⟩ b v = set_loop bits loc ⟨0, by decide⟩ b (v % 2^b) := by
  induction b using Nat.strong_induction_on with
  | _ b ih =>
    intro bits loc v
    rcases Nat.eq_zero_or_pos b with hb | hb
    · subst hb
      rw [set_loop_zero, set_loop_zero]
    · have hb2 : b ≠ 0 := by omega
      have hlt : b - (8 - (8 - b)) < b := by omega
      conv_lhs => rw [set_loop_step bits loc ⟨0, by decide⟩ b v hb2]
      conv_rhs => rw [set_loop_step bits loc ⟨0, by decide⟩ b (v % 2^b) hb2]
      simp only [fin_val_mk, Nat.sub_zero, Nat.shiftLeft_eq, Nat.shiftRight_eq_div_pow]
      have hdm : (v % 2^b) / 2^(b - (8 - (8 - b)))
          = v / 2^(b - (8 - (8 - b))) % 2^(8 - (8 - b)) := by
        rw [div_mod_two_pow_lift, show b - (8 - (8 - b)) + (8 - (8 - b)) = b from by omega]
      rw [hdm]
      have hwr : ∀ C y : Nat,
          (C + y * 2^(8 - b)) % 256 = (C + (y % 2^(8 - (8 - b))) * 2^(8 - b)) % 256 := by
        intro C y
        conv_lhs => rw [show y = 2^(8 - (8 - b)) * (y / 2^(8 - (8 - b))) + y % 2^(8 - (8 - b))
          from (Nat.div_add_mod _ _).symm]
        rw [show (C + (2^(8 - (8 - b)) * (y / 2^(8 - (8 - b))) + y % 2^(8 - (8 - b))) * 2^(8 - b))
            = (C + (y % 2^(8 - (8 - b))) * 2^(8 - b))
              + (y / 2^(8 - (8 - b))) * (2^(8 - (8 - b)) * 2^(8 - b))
          from by ring]
        rw [show (2:Nat)^(8 - (8 - b)) * 2^(8 - b) = 256 from by
          rw [← pow_add, show 8 - (8 - b) + (8 - b) = 8 from by omega]
          norm_num]
        rw [Nat.add_mul_mod_self_right]
      rw [hwr]
      conv_lhs => rw [ih (b - (8 - (8 - b))) hlt]
      conv_rhs => rw [ih (b - (8 - (8 - b))) hlt]
      rw [Nat.mod_mod_of_dvd v (pow_dvd_pow 2 (by omega))]

theorem loop_iterations_step (s : Fin 8) (b : Nat) (hb : b ≠ 0) :
    loop_iterations s b
      = 1 + loop_iterations ⟨0, by decide⟩ (b - (8 - s.val - (8 - s.val - b))) := by
  rw [loop_iterations, if_neg hb]

theorem loop_iterations_aligned_bound (b : Nat) :
    loop_iterations ⟨0, by decide⟩ b ≤ (b + 7) / 8 := by
  induction b using Nat.strong_induction_on with
  | _ b ih =>
    rcases Nat.eq_zero_or_pos b with hb | hb
    · subst hb
      rw [loop_iterations, if_pos rfl]
    · rw [loop_iterations_step _ _ (by omega)]
      simp only [fin_val_mk, Nat.sub_zero]
      rcases le_or_lt b 8 with hc | hc
      · rw [show b - (8 - (8 - b)) = 0 from by omega, loop_iterations, if_pos rfl]
        omega
      · rw [show b - (8 - (8 - b)) = b - 8 from by omega]
        have h := ih (b - 8) (by omega)
        omega

theorem loop_iterations_bound (s : Fin 8) (b : Nat) :
    loop_iterations s b ≤ (b + 7) / 8 + 1 := by
  rcases Nat.eq_zero_or_pos b with hb | hb
  · subst hb
    rw [loop_iterations, if_pos rfl]
    omega
  · rw [loop_iterations_step _ _ (by omega)]
    have h := loop_iterations_aligned_bound (b - (8 - s.val - (8 - s.val - b)))
    have h2 : (b - (8 - s.val - (8 - s.val - b)) + 7) / 8 ≤ (b + 7) / 8 :=
      Nat.div_le_div_right (by omega)
    omega

/-! ## The claims -/

/-- C1: Round-trip.  For every `width` in `1..=32`, every `length ≥ 1`,
every `index` with `index < length`, every `value < 2^width`, and every
prior contents of the allocated buffer (`length*width/8 + 1` bytes, the
size `libadt_bitwise_array_alloc` obtains), calling
`libadt_bitwise_array_set(array, index, value)` and then
`libadt_bitwise_array_get(array, index)` returns exactly `value`. -/
theorem C1_roundtrip (width len index v : Nat) (bits : List Nat)
    (hw1 : 1 ≤ width) (hw2 : width ≤ 32) (hl : 1 ≤ len) (hi : index < len)
    (hv : v < 2^width) (hbuf : bits.length = len * width / 8 + 1) :
    libadt_bitwise_array_get width (libadt_bitwise_array_set width bits index v) index
      = v := by
  have hlen : index * width + width ≤ 8 * bits.length := by
    have h1 := Nat.mul_le_mul_right width (show index + 1 ≤ len from by omega)
    rw [Nat.add_mul, Nat.one_mul] at h1
    omega
  have hbits : ∀ k, k < width →
      layout_bit (libadt_bitwise_array_set width bits index v) (index * width + k)
        = v / 2^(width - 1 - k) % 2 := by
    intro k hk
    rw [set_bit_clean _ _ _ _ _ hv hlen, if_pos (by omega)]
    rw [show index * width + k - index * width = k from by omega]
  rw [get_eq_layout _ _ _ hw2, layout_value_of_bits _ _ _ v hbits]
  exact Nat.mod_eq_of_lt hv

theorem C1_roundtrip_witness :
    (1 ≤ 3 ∧ 3 ≤ 32 ∧ 1 ≤ 4 ∧ 2 < 4 ∧ 5 < 2^3
      ∧ ([0, 0] : List Nat).length = 4 * 3 / 8 + 1)
    ∧ libadt_bitwise_array_get 3 (libadt_bitwise_array_set 3 [0, 0] 2 5) 2 = 5 :=
  ⟨by decide, C1_roundtrip 3 4 2 5 [0, 0] (by decide) (by decide) (by decide)
    (by decide) (by decide) (by decide)⟩

/-- C2: Binary layout.  For every width in `1..=32` and every index,
`libadt_bitwise_array_get` returns exactly the integer whose bits, most
significant first, are the buffer bits at absolute positions
`index*width .. (index+1)*width - 1` (`layout_value`), where absolute bit
`n` is bit `7 - n % 8` of byte `n / 8`; in particular with `width = 8` and
bytes `[0xff, 0x00, 0x10, 0xcc]`, `get` at indices `0..3` returns
`0xff, 0x00, 0x10, 0xcc`. -/
theorem C2_layout :
    (∀ (width : Nat) (bits : List Nat) (index : Nat), 1 ≤ width → width ≤ 32 →
      libadt_bitwise_array_get width bits index = layout_value bits (index * width) width)
    ∧ (libadt_bitwise_array_get 8 [255, 0, 16, 204] 0 = 255
      ∧ libadt_bitwise_array_get 8 [255, 0, 16, 204] 1 = 0
      ∧ libadt_bitwise_array_get 8 [255, 0, 16, 204] 2 = 16
      ∧ libadt_bitwise_array_get 8 [255, 0, 16, 204] 3 = 204) := by
  constructor
  · intro width bits index _ hw2
    exact get_eq_layout width bits index hw2
  · refine ⟨?_, ?_, ?_, ?_⟩ <;> (rw [get_eq_layout _ _ _ (by norm_num)]; decide)

theorem C2_layout_witness :
    (1 ≤ 7 ∧ 7 ≤ 32)
    ∧ libadt_bitwise_array_get 7 [255, 0, 16, 204] 1
        = layout_value [255, 0, 16, 204] (1 * 7) 7 :=
  ⟨by decide, C2_layout.1 7 [255, 0, 16, 204] 1 (by decide) (by decide)⟩

/-- C3: Non-interference.  For every width in `1..=32`, valid indices
`i ≠ j`, and `v < 2^width`, setting index `i` leaves `get` at `j`
unchanged. -/
theorem C3_noninterference (width len i j v : Nat) (bits : List Nat)
    (hw1 : 1 ≤ width) (hw2 : width ≤ 32) (hi : i < len) (hj : j < len) (hij : i ≠ j)
    (hv : v < 2^width) (hbuf : bits.length = len * width / 8 + 1) :
    libadt_bitwise_array_get width (libadt_bitwise_array_set width bits i v) j
      = libadt_bitwise_array_get width bits j := by
  have hleni : i * width + width ≤ 8 * bits.length := by
    have h1 := Nat.mul_le_mul_right width (show i + 1 ≤ len from by omega)
    rw [Nat.add_mul, Nat.one_mul] at h1
    omega
  rw [get_eq_layout _ _ _ hw2, get_eq_layout _ _ _ hw2]
  apply layout_value_congr
  intro k hk
  rw [set_bit_clean _ _ _ _ _ hv hleni]
  rcases lt_or_gt_of_ne hij with hlt | hgt
  · have hd := Nat.mul_le_mul_right width (show i + 1 ≤ j from by omega)
    rw [Nat.add_mul, Nat.one_mul] at hd
    rw [if_neg (by omega)]
  · have hd := Nat.mul_le_mul_right width (show j + 1 ≤ i from by omega)
    rw [Nat.add_mul, Nat.one_mul] at hd
    rw [if_neg (by omega)]

theorem C3_noninterference_witness :
    (1 ≤ 3 ∧ 3 ≤ 32 ∧ 1 < 4 ∧ 2 < 4 ∧ (1 : Nat) ≠ 2 ∧ 7 < 2^3
      ∧ ([0, 0] : List Nat).length = 4 * 3 / 8 + 1)
    ∧ libadt_bitwise_array_get 3 (libadt_bitwise_array_set 3 [0, 0] 1 7) 2
        = libadt_bitwise_array_get 3 [0, 0] 2 :=
  ⟨by decide, C3_noninterference 3 4 1 2 7 [0, 0] (by decide) (by decide) (by decide)
    (by decide) (by decide) (by decide) (by decide)⟩

/-- C4: In-bounds access.  For an array allocated with `length ≥ 0` and
`width ≥ 1` and any `index < length`: `get` depends only on the bytes at
offsets `0 .. length*width/8` (all strictly inside the allocated
`length*width/8 + 1` bytes), and `set` changes no byte at any offset
beyond `length*width/8`, even when the element's last bits are not
byte-aligned. -/
theorem C4_inbounds (width len index : Nat) (hw : 1 ≤ width) (hi : index < len) :
    (∀ bits1 bits2 : List Nat,
      (∀ k, k ≤ len * width / 8 → bits1.getD k 0 = bits2.getD k 0) →
      libadt_bitwise_array_get width bits1 index
        = libadt_bitwise_array_get width bits2 index)
    ∧ (∀ (bits : List Nat) (v k : Nat), len * width / 8 < k →
      (libadt_bitwise_array_set width bits index v).getD k 0 = bits.getD k 0) := by
  have hmul : index * width + width ≤ len * width := by
    have h1 := Nat.mul_le_mul_right width (show index + 1 ≤ len from by omega)
    rw [Nat.add_mul, Nat.one_mul] at h1
    omega
  constructor
  · intro bits1 bits2 hagree
    rw [libadt_bitwise_array_get_spec, libadt_bitwise_array_get_spec]
    congr 1
    apply layout_value_congr
    intro k hk
    apply layout_bit_congr
    apply hagree
    have h2 : (index * width + k) / 8 ≤ (len * width - 1) / 8 :=
      Nat.div_le_div_right (by omega)
    have h3 : (len * width - 1) / 8 ≤ len * width / 8 :=
      Nat.div_le_div_right (by omega)
    omega
  · intro bits v k hk
    rw [libadt_bitwise_array_set]
    exact set_loop_frame width bits ((index * width) / 8) v k
      ⟨(index * width) % 8, Nat.mod_lt _ (by decide)⟩
      (Or.inr (by rw [fin_val_mk]; omega))

theorem C4_inbounds_witness :
    (1 ≤ 3 ∧ 2 < 4 ∧ 4 * 3 / 8 < 2)
    ∧ (libadt_bitwise_array_set 3 [0, 0] 2 5).getD 2 0 = ([0, 0] : List Nat).getD 2 0 :=
  ⟨by decide, (C4_inbounds 3 4 2 (by decide) (by decide)).2 [0, 0] 5 2 (by decide)⟩

/-- C5 (counterexample): the claim "`set(array, index, value)` leaves the
buffer in the same state as `set(array, index, value mod 2^width)`" fails
at `width = 4`, `index = 1`, `value = 16`, buffer `[0, 0]`: the oversized
value is added, not masked, into the shared first byte, producing `[16, 0]`
(corrupting element 0) while `value mod 16 = 0` produces `[0, 0]`. -/
theorem C5_truncation_counterexample :
    libadt_bitwise_array_set 4 [0, 0] 1 16
      ≠ libadt_bitwise_array_set 4 [0, 0] 1 (16 % 2^4) := by
  have h1 : libadt_bitwise_array_set 4 [0, 0] 1 16 = [16, 0] := by
    rw [libadt_bitwise_array_set, set_loop]
    norm_num
    rw [set_loop]
    norm_num
  have h2 : libadt_bitwise_array_set 4 [0, 0] 1 (16 % 2^4) = [0, 0] := by
    rw [libadt_bitwise_array_set, set_loop]
    norm_num
    rw [set_loop]
    norm_num
  rw [h1, h2]
  decide

/-- C5 (amended): when the element starts at a byte boundary
(`index * width` divisible by 8), `libadt_bitwise_array_set` with any
`value` leaves the buffer in the same state as setting
`value mod 2^width`: the high bits then fall outside the written byte and
are discarded by the `unsigned char` truncation.  (In general — the
counterexample — an oversized value's high bits are added into the first
byte and can disturb earlier elements sharing it.) -/
theorem C5_truncation_amended (width : Nat) (bits : List Nat) (index v : Nat)
    (halign : (index * width) % 8 = 0) :
    libadt_bitwise_array_set width bits index v
      = libadt_bitwise_array_set width bits index (v % 2^width) := by
  rw [libadt_bitwise_array_set, libadt_bitwise_array_set]
  rw [show (⟨(index * width) % 8, Nat.mod_lt _ (by decide)⟩ : Fin 8)
      = (⟨0, by decide⟩ : Fin 8) from Fin.ext (by rw [fin_val_mk, fin_val_mk, halign])]
  exact set_loop_aligned_trunc width bits ((index * width) / 8) v

theorem C5_truncation_amended_witness :
    (2 * 4) % 8 = 0
    ∧ libadt_bitwise_array_set 4 [0, 0] 2 17
        = libadt_bitwise_array_set 4 [0, 0] 2 (17 % 2^4) :=
  ⟨by decide, C5_truncation_amended 4 [0, 0] 2 17 (by decide)⟩

/-- C6 (counterexample): `libadt_bitwise_array_free` returns `void` and
receives the struct by value, so after the call the array value the caller
holds is unchanged and `libadt_bitwise_array_valid` still reports `true`
on a validly-allocated array — not `false` as claimed. -/
theorem C6_release_counterexample :
    libadt_bitwise_array_valid
        (libadt_bitwise_array_alloc (fun bytes => some (List.replicate bytes.toNat 0)) 4 3)
      = true
    ∧ libadt_bitwise_array_valid
        (libadt_bitwise_array_free
          (libadt_bitwise_array_alloc (fun bytes => some (List.replicate bytes.toNat 0)) 4 3))
      = true := by
  constructor <;> decide

/-- C6 (amended): releasing an array does not change the caller's struct
value (the C function returns `void` and takes the struct by value), so
the validity check after `libadt_bitwise_array_free` reports exactly what
it reported before — `true` for a validly-allocated array, unlike
`libadt_lptr_free`/`libadt_vector_free`, which return an invalidated
struct. -/
theorem C6_release_amended (array : libadt_bitwise_array) :
    libadt_bitwise_array_valid (libadt_bitwise_array_free array)
      = libadt_bitwise_array_valid array := rfl

/-- C7: Allocation failure on negative input.  For negative `length` or
`width` (in particular `alloc(-1, 8)` and `alloc(4, -1)`) the returned
array has an unset buffer and fails `libadt_bitwise_array_valid`; on
non-negative input validity holds iff the underlying allocation succeeded
(the `malloc` oracle returned a buffer rather than `NULL`). -/
theorem C7_alloc_validity (malloc : Int → Option (List Nat)) (length width : Int) :
    ((length < 0 ∨ width < 0) →
      libadt_bitwise_array_valid (libadt_bitwise_array_alloc malloc length width) = false)
    ∧ (0 ≤ length → 0 ≤ width →
      (libadt_bitwise_array_valid (libadt_bitwise_array_alloc malloc length width) = true
        ↔ (malloc ((length * width).tdiv 8 + 1)).isSome = true)) := by
  constructor
  · intro h
    rw [libadt_bitwise_array_alloc, if_pos h]
    rfl
  · intro h1 h2
    rw [libadt_bitwise_array_alloc, if_neg (by omega)]
    exact Iff.rfl

theorem C7_alloc_validity_witness :
    (((-1 : Int) < 0 ∨ (8 : Int) < 0)
      ∧ libadt_bitwise_array_valid
          (libadt_bitwise_array_alloc (fun _ => some []) (-1) 8) = false)
    ∧ (((4 : Int) < 0 ∨ (-1 : Int) < 0)
      ∧ libadt_bitwise_array_valid
          (libadt_bitwise_array_alloc (fun _ => some []) 4 (-1)) = false) :=
  ⟨⟨by norm_num, (C7_alloc_validity (fun _ => some []) (-1) 8).1 (by norm_num)⟩,
   ⟨by norm_num, (C7_alloc_validity (fun _ => some []) 4 (-1)).1 (by norm_num)⟩⟩

/-- C8: Allocation size.  For `length ≥ 0` and `width ≥ 0`,
`libadt_bitwise_array_alloc` requests exactly
`(length*width) div 8 + 1` bytes from the allocator (with truncated = floor
division, the operands being non-negative) and the returned struct carries
the given `length` and `width`. -/
theorem C8_alloc_size (malloc : Int → Option (List Nat)) (length width : Int)
    (h1 : 0 ≤ length) (h2 : 0 ≤ width) :
    libadt_bitwise_array_alloc malloc length width
      = ⟨length, width, malloc ((length * width).tdiv 8 + 1)⟩
    ∧ (length * width).tdiv 8 = (length * width) / 8 := by
  constructor
  · rw [libadt_bitwise_array_alloc, if_neg (by omega)]
  · exact Int.tdiv_eq_ediv (mul_nonneg h1 h2) (by norm_num)

theorem C8_alloc_size_witness :
    ((0 : Int) ≤ 4 ∧ (0 : Int) ≤ 3)
    ∧ libadt_bitwise_array_alloc (fun _ => (none : Option (List Nat))) 4 3
        = ⟨4, 3, (fun _ => (none : Option (List Nat))) (((4 : Int) * 3).tdiv 8 + 1)⟩ :=
  ⟨by norm_num,
   (C8_alloc_size (fun _ => (none : Option (List Nat))) 4 3 (by norm_num) (by norm_num)).1⟩

/-- C9: Termination.  The per-byte loop shared by `get` and `set`
(mirrored by `loop_iterations`) unconditionally terminates: when bits
remain, the per-iteration `bits_read`/`bits_write` count
`8 - start_from - right_bits_ignore` is at least 1; the loop executes at
most `ceil(width/8) + 1 = (width+7)/8 + 1` iterations, and 0 iterations
when `width = 0` (a non-positive C `width` runs the loop zero times). -/
theorem C9_termination : ∀ (start_from : Fin 8) (width : Nat),
    (0 < width → 1 ≤ 8 - start_from.val - (8 - start_from.val - width))
    ∧ loop_iterations start_from width ≤ (width + 7) / 8 + 1
    ∧ (width = 0 → loop_iterations start_from width = 0) := by
  intro s b
  refine ⟨fun hb => ?_, loop_iterations_bound s b, fun hb => ?_⟩
  · have := s.isLt
    omega
  · subst hb
    rw [loop_iterations]
    norm_num

theorem C9_termination_witness :
    (1 ≤ 8 - ((⟨3, by decide⟩ : Fin 8)).val - (8 - ((⟨3, by decide⟩ : Fin 8)).val - 15))
    ∧ loop_iterations ⟨3, by decide⟩ 15 ≤ (15 + 7) / 8 + 1 :=
  ⟨(C9_termination ⟨3, by decide⟩ 15).1 (by decide),
   (C9_termination ⟨3, by decide⟩ 15).2.1⟩

/-- C10: Range of `get`.  For every width `≤ 32`, every index, and every
buffer contents (whether or not ever written by `set`),
`libadt_bitwise_array_get` returns a value strictly below `2^width`; in
particular it returns 0 when `width = 0`. -/
theorem C10_get_range (width : Nat) (bits : List Nat) (index : Nat) (hw : width ≤ 32) :
    libadt_bitwise_array_get width bits index < 2^width
    ∧ (width = 0 → libadt_bitwise_array_get width bits index = 0) := by
  constructor
  · rw [get_eq_layout _ _ _ hw]
    exact layout_value_lt bits (index * width) width
  · intro h
    subst h
    rw [get_eq_layout _ _ _ (by norm_num)]
    rfl

theorem C10_get_range_witness :
    (9 ≤ 32) ∧ libadt_bitwise_array_get 9 [255, 255] 0 < 2^9 :=
  ⟨by decide, (C10_get_range 9 [255, 255] 0 (by decide)).1⟩
